import Mathlib

/-!
# Verification of the n-puzzle solver (LucaIanniello/CI2024_lab3)

Shallow embedding of the sliding-tile puzzle code in `src/n-puzzle.ipynb`.
The notebook fixes a global `PUZZLE_DIM = 3`; here every definition takes the
dimension `d` as an explicit parameter and the claims instantiate `d = 3`
(and `d = 1` for the boundary remark of the spec).

A board is a `d × d` numpy array of ints; we embed it as a function from grid
positions to naturals.  `state.tobytes()` is injective for a fixed shape and
dtype, so the byte key used by the searches for identity is modelled by the
board value itself.
-/

namespace NPuzzle

/-- A grid coordinate `(x, y)`: `x` is the row, `y` the column, as in the
numpy indexing `state[x, y]` of the source. -/
abbrev Pos (d : ℕ) := Fin d × Fin d

/-- A board: the value held at each cell.  Cell values of a well-formed board
are `0 .. d*d-1`, `0` denoting the blank. -/
abbrev Board (d : ℕ) := Pos d → ℕ

/-- `action = namedtuple('Action', ['pos1', 'pos2'])` of the source. -/
structure Action (d : ℕ) where
  pos1 : Pos d
  pos2 : Pos d
deriving DecidableEq

/-- The grid positions in row-major order (the order `np.where` reports
matches in). -/
def positions (d : ℕ) : List (Pos d) :=
  (List.finRange d).flatMap (fun x => (List.finRange d).map (fun y => (x, y)))

/-- The blank cell:
`x, y = [int(_[0]) for _ in np.where(state == 0)]` takes the row-major first
cell holding `0`.  A board with no `0` cell makes the source raise an
IndexError; that case is unreachable for well-formed boards and is mapped to
`none` here. -/
def findBlank {d : ℕ} (b : Board d) : Option (Pos d) :=
  (positions d).find? (fun p => b p == 0)

/-- `available_actions(state)` of the source: the legal moves from `state`,
in the order up, down, left, right (each present only when in bounds).
`pos1` is the blank cell, `pos2` the orthogonal neighbour swapped with it. -/
def available_actions {d : ℕ} (b : Board d) : List (Action d) :=
  match findBlank b with
  | none => []
  | some (x, y) =>
      (if _h : 0 < (x : ℕ) then
        [⟨(x, y), (⟨(x : ℕ) - 1, Nat.lt_of_le_of_lt (Nat.sub_le _ _) x.isLt⟩, y)⟩]
      else []) ++
      (if h : (x : ℕ) < d - 1 then
        [⟨(x, y), (⟨(x : ℕ) + 1, by omega⟩, y)⟩]
      else []) ++
      (if _h : 0 < (y : ℕ) then
        [⟨(x, y), (x, ⟨(y : ℕ) - 1, Nat.lt_of_le_of_lt (Nat.sub_le _ _) y.isLt⟩)⟩]
      else []) ++
      (if h : (y : ℕ) < d - 1 then
        [⟨(x, y), (x, ⟨(y : ℕ) + 1, by omega⟩)⟩]
      else [])

/-- `do_action(state, action)` of the source: copy the array and exchange the
values at `pos1` and `pos2`.  No validity check of any kind is performed. -/
def do_action {d : ℕ} (b : Board d) (a : Action d) : Board d :=
  fun p => if p = a.pos1 then b a.pos2 else if p = a.pos2 then b a.pos1 else b p

/-- The canonical goal arrangement
`np.array([i for i in range(1, PUZZLE_DIM**2)] + [0]).reshape(...)`:
ascending values with the blank last. -/
def goal_board (d : ℕ) : Board d :=
  fun p =>
    if (p.1 : ℕ) * d + (p.2 : ℕ) = d * d - 1 then 0
    else (p.1 : ℕ) * d + (p.2 : ℕ) + 1

/-- `is_goal(state)` of the source: `np.array_equal(state, goal)`, i.e.
pointwise equality with the canonical goal. -/
def is_goal {d : ℕ} (b : Board d) : Bool :=
  decide (∀ p : Pos d, b p = goal_board d p)

/-- `difference_from_goal(state)` of the source: `np.sum(state != goal)`,
the number of cells whose value differs from the goal value there. -/
def difference_from_goal {d : ℕ} (b : Board d) : ℕ :=
  (Finset.univ.filter (fun p : Pos d => b p ≠ goal_board d p)).card

/-- `manhattan_distance(state)` of the source.  NOTE, faithful to the code:
the goal position looked up for a value `v` is
`goal_positions[v] = (v // PUZZLE_DIM, v % PUZZLE_DIM)` — the position of `v`
in the blank-FIRST arrangement, not in the blank-last board `is_goal`
compares against. -/
def manhattan_distance {d : ℕ} (b : Board d) : ℤ :=
  ∑ p : Pos d,
    if b p ≠ 0 then
      |(p.1 : ℤ) - ((b p / d : ℕ) : ℤ)| + |(p.2 : ℤ) - ((b p % d : ℕ) : ℤ)|
    else 0

/-- `linear_conflict(state)` of the source: for every row and every column,
the number of pairs `(j, k)` with `j < k` whose values appear in decreasing
order (`row[j] > row[k]`), summed over all lines.  Faithful to the code, the
blank participates in the comparisons like any tile. -/
def linear_conflict {d : ℕ} (b : Board d) : ℕ :=
  ∑ i : Fin d,
    (((Finset.univ : Finset (Fin d × Fin d)).filter
        (fun jk => jk.1 < jk.2 ∧ b (i, jk.1) > b (i, jk.2))).card +
     ((Finset.univ : Finset (Fin d × Fin d)).filter
        (fun jk => jk.1 < jk.2 ∧ b (jk.1, i) > b (jk.2, i))).card)

/-- A well-formed puzzle configuration: every cell value is below `d*d` and
no two cells hold the same value (hence each of `0 .. d*d-1` appears exactly
once). -/
def validBoard {d : ℕ} (b : Board d) : Prop :=
  (∀ p : Pos d, b p < d * d) ∧ Function.Injective b

instance {d : ℕ} (b : Board d) : Decidable (validBoard b) := by
  unfold validBoard; infer_instance

/-- A board from its row-major list of values (test helper, also how the
notebook literals such as `[[1,2,3],[4,5,6],[7,8,0]]` are written here). -/
def boardOfList {d : ℕ} (l : List ℕ) : Board d :=
  fun p => l.getD ((p.1 : ℕ) * d + (p.2 : ℕ)) 0

/-! ## The A* search (`A_star` of the source)

The heap `open_list` holds tuples `(priority, state.tobytes(), path)`.
`tobytes` is injective for the fixed shape and int64 dtype, and — all cell
values being below 256 — comparing the byte strings lexicographically is the
same as comparing the row-major value sequences lexicographically, so the
heap is modelled as a multiset of entries holding the board itself, popped
by minimal `(priority, row-major values)`.  (Paths are never compared: the
closed-set discipline keeps all keys in the heap distinct.)  The `while`
loop is embedded with explicit fuel, `none` standing for running out of
fuel before the loop exits. -/

/-- One tuple of the `open_list` heap. -/
structure Entry (d : ℕ) where
  priority : ℤ
  key : Board d
  path : List (Action d)
deriving DecidableEq

/-- The row-major value sequence of a board: the comparison key that
`state.tobytes()` realises for cell values below 256. -/
def boardKey {d : ℕ} (b : Board d) : List ℕ :=
  (positions d).map b

/-- Strict lexicographic comparison of value sequences (the order of the
byte keys). -/
def listLt : List ℕ → List ℕ → Bool
  | [], [] => false
  | [], _ :: _ => true
  | _ :: _, [] => false
  | a :: as, b :: bs => if a < b then true else if b < a then false else listLt as bs

/-- Heap order on entries: by priority, ties by byte key. -/
def entryLt {d : ℕ} (e₁ e₂ : Entry d) : Bool :=
  e₁.priority < e₂.priority ||
    (e₁.priority == e₂.priority && listLt (boardKey e₁.key) (boardKey e₂.key))

/-- `heappop`: remove a minimal entry from the heap (modelled as a list). -/
def popMin {d : ℕ} : List (Entry d) → Option (Entry d × List (Entry d))
  | [] => none
  | e :: es =>
      match popMin es with
      | none => some (e, [])
      | some (m, rest) => if entryLt m e then some (m, e :: rest) else some (e, es)

/-- The entry the A* successor loop pushes for action `a`:
`next_path = path + [action]`,
`priority = manhattan_distance(next) + 2*linear_conflict(next) + len(next_path)`
(the source's comment: `A* evaluation: f(n) = g(n) + h(n)`). -/
def newEntry {d : ℕ} (board : Board d) (path : List (Action d)) (a : Action d) :
    Entry d :=
  ⟨manhattan_distance (do_action board a) +
      2 * (linear_conflict (do_action board a) : ℤ) +
      ((path ++ [a]).length : ℤ),
    do_action board a, path ++ [a]⟩

/-- The body of the successor-generation `for` loop of one A* iteration:
`next = do_action(current_state, action)`; only if its key is not in the
closed set, push `newEntry` and add the key to the closed set at once. -/
def pushStep {d : ℕ} (board : Board d) (path : List (Action d))
    (acc : List (Entry d) × Finset (Board d)) (a : Action d) :
    List (Entry d) × Finset (Board d) :=
  let next := do_action board a
  if next ∈ acc.2 then acc
  else (acc.1 ++ [newEntry board path a], insert next acc.2)

/-- The successor-generation `for` loop of one A* iteration: from the popped
entry's board and path, fold `pushStep` over `available_actions`.  Returns
the pushed entries and the grown closed set. -/
def expand {d : ℕ} (board : Board d) (path : List (Action d))
    (closed : Finset (Board d)) : List (Entry d) × Finset (Board d) :=
  (available_actions board).foldl (pushStep board path) ([], closed)

/-- The `while open_list:` loop of `A_star`.  Returns
`some (path?, quality, cost)` when the loop exits (goal popped, or heap
empty giving `(None, -1, len(closed_set))`), `none` when the fuel runs out
first. -/
def A_star_loop {d : ℕ} :
    ℕ → List (Entry d) → Finset (Board d) →
      Option (Option (List (Action d)) × ℤ × ℕ)
  | 0, _, _ => none
  | fuel + 1, open_list, closed =>
      match popMin open_list with
      | none => some (none, -1, closed.card)
      | some (e, rest) =>
          if is_goal e.key then some (some e.path, (e.path.length : ℤ), closed.card)
          else
            let r := expand e.key e.path closed
            A_star_loop fuel (rest ++ r.1) r.2

/-- `A_star(initial_state)`: heap seeded with
`(manhattan_distance(initial_state), initial_state.tobytes(), [])`, closed
set seeded with the start identity. -/
def A_star {d : ℕ} (fuel : ℕ) (initial_state : Board d) :
    Option (Option (List (Action d)) × ℤ × ℕ) :=
  A_star_loop fuel [⟨manhattan_distance initial_state, initial_state, []⟩]
    {initial_state}

/-! ### Iteration-level view of the same loop, for the invariant claims -/

/-- The mutable state of the A* loop: the heap and the closed set. -/
def AState (d : ℕ) := List (Entry d) × Finset (Board d)

/-- One iteration of the `while` loop as a state transformer: `none` when
the loop exits this iteration (heap empty, or the popped board is the
goal). -/
def A_step {d : ℕ} (s : AState d) : Option (AState d) :=
  match popMin s.1 with
  | none => none
  | some (e, rest) =>
      if is_goal e.key then none
      else
        let r := expand e.key e.path s.2
        some (rest ++ r.1, r.2)

/-- The board identities pushed onto the heap during one iteration from
state `s` (empty when the loop exits at `s`). -/
def pushedIn {d : ℕ} (s : AState d) : List (Board d) :=
  match popMin s.1 with
  | none => []
  | some (e, _) =>
      if is_goal e.key then []
      else ((expand e.key e.path s.2).1.map Entry.key)

/-- The state after `n` iterations of the loop from `s` (`none` once the
loop has exited). -/
def A_iter {d : ℕ} (s : AState d) : ℕ → Option (AState d)
  | 0 => some s
  | n + 1 =>
      match A_iter s n with
      | none => none
      | some s₁ => A_step s₁

/-- The initial loop state of `A_star initial_state`. -/
def A_init {d : ℕ} (initial_state : Board d) : AState d :=
  ([⟨manhattan_distance initial_state, initial_state, []⟩], {initial_state})

/-! ## The beam search (`beam_search` of the source)

The queue holds `(priority, state-as-tuple)` pairs; priorities are the
floats `0.8 * difference_from_goal + 0.2 * manhattan_distance`, embedded
exactly in `ℚ` (every value involved is small enough that the float
arithmetic of the source is exact up to the final ordering, which no claim
below depends on).  `random.choice` is modelled by an oracle `rng` giving
the index of the chosen action at each draw. -/

/-- A queue element of `beam_search`. -/
structure BEntry (d : ℕ) where
  priority : ℚ
  key : Board d
deriving DecidableEq

/-- Beam-queue order: by priority, ties by the tuple of the board (the
row-major value sequence, as for `Entry`). -/
def bentryLt {d : ℕ} (e₁ e₂ : BEntry d) : Bool :=
  e₁.priority < e₂.priority ||
    (e₁.priority == e₂.priority && listLt (boardKey e₁.key) (boardKey e₂.key))

/-- `heappop` for the beam queue. -/
def popMinB {d : ℕ} : List (BEntry d) → Option (BEntry d × List (BEntry d))
  | [] => none
  | e :: es =>
      match popMinB es with
      | none => some (e, [])
      | some (m, rest) => if bentryLt m e then some (m, e :: rest) else some (e, es)

/-- The inner `for _ in range(beam_size)` loop: draw a random action,
apply it, and push the scored successor when unvisited, counting evaluated
nodes.  Threads the queue, the node counter and the draw counter. -/
def beam_inner {d : ℕ} (rng : ℕ → ℕ) (state : Board d)
    (visited : Finset (Board d)) :
    ℕ → List (BEntry d) → ℕ → ℕ → List (BEntry d) × ℕ × ℕ
  | 0, queue, total, draws => (queue, total, draws)
  | n + 1, queue, total, draws =>
      let acts := available_actions state
      match acts.get? (rng draws % acts.length) with
      | none =>
          -- `random.choice` on an empty list raises in the source; the case is
          -- unreachable (every popped board has a blank, hence moves).
          beam_inner rng state visited n queue total (draws + 1)
      | some a =>
      let new_state := do_action state a
      if new_state ∈ visited then
        beam_inner rng state visited n queue total (draws + 1)
      else
        let priority : ℚ :=
          (8 / 10 : ℚ) * (difference_from_goal new_state : ℚ) +
            (2 / 10 : ℚ) * ((manhattan_distance new_state : ℚ))
        beam_inner rng state visited n (queue ++ [⟨priority, new_state⟩])
          (total + 1) (draws + 1)

/-- The `while priority_queue and not is_goal(state):` loop of
`beam_search`, with fuel; `none` marks running out of fuel. -/
def beam_loop {d : ℕ} (rng : ℕ → ℕ) (beam_size : ℕ) :
    ℕ → List (BEntry d) → Board d → Finset (Board d) → ℕ → ℕ →
      Option (Board d × ℕ × ℕ)
  | 0, _, _, _, _, _ => none
  | fuel + 1, queue, state, visited, total, draws =>
      if queue.isEmpty || is_goal state then some (state, total, visited.card)
      else
        match popMinB queue with
        | none => some (state, total, visited.card)
        | some (e, rest) =>
            let state₁ := e.key
            let visited₁ := insert state₁ visited
            if is_goal state₁ then some (state₁, total, visited₁.card)
            else
              let r := beam_inner rng state₁ visited₁ beam_size rest total draws
              beam_loop rng beam_size fuel r.1 state₁ visited₁ r.2.1 r.2.2

/-- `beam_search(state, beam_size)`: empty visited set and node counter,
queue seeded with `(difference_from_goal(state), tuple(state))`, then the
loop. -/
def beam_search {d : ℕ} (rng : ℕ → ℕ) (beam_size fuel : ℕ) (state : Board d) :
    Option (Board d × ℕ × ℕ) :=
  beam_loop rng beam_size fuel
    [⟨(difference_from_goal state : ℚ), state⟩] state ∅ 0 0

/-! ## Derived notions the claims speak about -/

/-- Orthogonal adjacency of two grid cells: they differ by one step in
exactly one coordinate. -/
def adjacent {d : ℕ} (p q : Pos d) : Prop :=
  ((p.1 : ℤ) - (q.1 : ℤ)).natAbs + ((p.2 : ℤ) - (q.2 : ℤ)).natAbs = 1

instance {d : ℕ} (p q : Pos d) : Decidable (adjacent p q) := by
  unfold adjacent; infer_instance

/-- `reachable_in k b c`: board `c` arises from board `b` by `k` legal
moves (the scrambling walk of the notebook: `k` times, pick a member of
`available_actions` and `do_action` it). -/
def reachable_in {d : ℕ} : ℕ → Board d → Board d → Prop
  | 0, b, c => c = b
  | k + 1, b, c =>
      ∃ b₁, reachable_in k b b₁ ∧ ∃ m ∈ available_actions b₁, c = do_action b₁ m

/-! ## Facts about the move generator -/

/-- Membership in a guarded singleton, as the four clauses of
`available_actions` produce them. -/
theorem mem_dite_singleton {α : Type _} {C : Prop} [Decidable C] (f : C → α)
    {m : α} (h : m ∈ if hc : C then [f hc] else []) : ∃ hc : C, m = f hc := by
  split at h
  · exact ⟨‹C›, by simpa using h⟩
  · simp at h

/-- Any move returned by `available_actions b` starts at the blank found by
`findBlank`, whose cell holds `0`, and moves to a distinct, orthogonally
adjacent cell. -/
theorem available_actions_mem {d : ℕ} {b : Board d} {m : Action d}
    (hm : m ∈ available_actions b) :
    findBlank b = some m.pos1 ∧ b m.pos1 = 0 ∧ m.pos2 ≠ m.pos1 ∧
      adjacent m.pos1 m.pos2 := by
  unfold available_actions at hm
  cases hfb : findBlank b with
  | none => rw [hfb] at hm; simp at hm
  | some q =>
      obtain ⟨x, y⟩ := q
      rw [hfb] at hm
      have hb0 : b (x, y) = 0 := by
        have h := List.find?_some hfb
        simpa using h
      simp only [List.append_assoc, List.mem_append] at hm
      rcases hm with h | h | h | h <;>
        obtain ⟨hc, rfl⟩ := mem_dite_singleton _ h <;>
        refine ⟨rfl, hb0, ?_, ?_⟩ <;>
        simp only [ne_eq, Prod.mk.injEq, Fin.ext_iff, not_and, adjacent] <;>
        omega

/-- `do_action` is precomposition with the transposition of the two
referenced cells. -/
theorem do_action_eq_swap {d : ℕ} (b : Board d) (m : Action d) :
    do_action b m = fun p => b (Equiv.swap m.pos1 m.pos2 p) := by
  funext p
  simp only [do_action, Equiv.swap_apply_def]
  by_cases h1 : p = m.pos1 <;> by_cases h2 : p = m.pos2 <;>
    by_cases h3 : m.pos2 = m.pos1 <;> simp [h1, h2, h3]

/-! ## The claims -/

/-- C1: the spec asserts `manhattanDistance(goal) == 0` and
`linearConflict(goal) == 0`.  The code disagrees at the canonical goal
board: `manhattan_distance` looks a value `v` up at `(v / 3, v % 3)` — the
blank-FIRST arrangement, not the blank-last goal that `is_goal` tests — so
it returns `12` at the goal; and `linear_conflict` counts all inversions
including those against the blank (which follows every tile), returning
`4`.  The non-negativity half of the claim does hold, for every board. -/
theorem heuristics_at_goal_value :
    manhattan_distance (goal_board 3) = 12 ∧
    linear_conflict (goal_board 3) = 4 ∧
    (∀ d₀ : ℕ, ∀ b : Board d₀, 0 ≤ manhattan_distance b) ∧
    (∀ d₀ : ℕ, ∀ b : Board d₀, 0 ≤ (linear_conflict b : ℤ)) := by
  refine ⟨by decide, by decide, ?_, fun d₀ b => Int.ofNat_nonneg _⟩
  intro d₀ b
  unfold manhattan_distance
  apply Finset.sum_nonneg
  intro p _
  split
  · positivity
  · exact le_refl 0

/-- C2: admissibility of `manhattan_distance` with respect to the canonical
goal fails in the code: the goal board is reachable from the goal board by
`k = 0` legal moves, yet `manhattan_distance` assigns it `12 > 0` (same
root cause as the value at the goal: the heuristic measures distance to the
blank-first arrangement). -/
theorem manhattan_not_admissible :
    reachable_in 0 (goal_board 3) (goal_board 3) ∧
    ¬ manhattan_distance (goal_board 3) ≤ (0 : ℤ) :=
  ⟨rfl, by decide⟩

/-- C6: moves are self-inverse: applying a move produced by
`available_actions` twice restores the original board (`do_action` swaps
the same two cells back). -/
theorem do_action_self_inverse (d : ℕ) (b : Board d) (m : Action d)
    (_hm : m ∈ available_actions b) :
    do_action (do_action b m) m = b := by
  rw [do_action_eq_swap, do_action_eq_swap]
  funext p
  simp

/-- C6 witness: undoing the up move from the goal board's blank corner. -/
theorem do_action_self_inverse_w :
    do_action
      (do_action (boardOfList (d := 3) [1, 2, 3, 4, 5, 6, 7, 8, 0])
        ⟨(2, 2), (1, 2)⟩)
      ⟨(2, 2), (1, 2)⟩ =
    boardOfList (d := 3) [1, 2, 3, 4, 5, 6, 7, 8, 0] :=
  do_action_self_inverse 3 (boardOfList [1, 2, 3, 4, 5, 6, 7, 8, 0])
    ⟨(2, 2), (1, 2)⟩ (by decide)

/-- C8: when the frontier heap is empty, the A* loop returns the failure
triple `(None, -1, |closed set|)` rather than raising; the third component
is the cardinality of the closed set, the distinct board identities
discovered. -/
theorem A_star_empty_frontier (d fuel : ℕ) (closed : Finset (Board d)) :
    A_star_loop (fuel + 1) ([] : List (Entry d)) closed =
      some (none, -1, closed.card) := rfl

/-- C10: `beam_search` called on a board that is already the goal returns
immediately — the `is_goal` test in the `while` condition precedes the
first pop — giving the input board itself, an evaluated-node count of `0`
and a visited-set size of `0`. -/
theorem beam_search_at_goal (d : ℕ) (rng : ℕ → ℕ) (beam_size fuel : ℕ)
    (b : Board d) (h : is_goal b = true) :
    beam_search rng beam_size (fuel + 1) b = some (b, 0, 0) := by
  simp [beam_search, beam_loop, h]

/-- C10 witness: the goal board itself. -/
theorem beam_search_at_goal_w :
    beam_search (fun _ => 0) 4 1 (goal_board 3) = some (goal_board 3, 0, 0) :=
  beam_search_at_goal 3 (fun _ => 0) 4 0 (goal_board 3) (by decide)

/-- C3 counterexample: the claim says `do_action` fails with
`InvalidMoveError` whenever the move's positions are not the blank and an
adjacent cell.  The source performs no check whatsoever: on the goal board,
the move `((0,0),(2,2))` — neither cell is the blank's neighbour, and
`(0,0)` is not the blank — is not produced by `available_actions`, yet
`do_action` happily returns the board with the two corners swapped. -/
theorem do_action_no_validation_cex :
    (⟨(0, 0), (2, 2)⟩ : Action 3) ∉
        available_actions (boardOfList (d := 3) [1, 2, 3, 4, 5, 6, 7, 8, 0]) ∧
    do_action (boardOfList (d := 3) [1, 2, 3, 4, 5, 6, 7, 8, 0])
        ⟨(0, 0), (2, 2)⟩ =
      boardOfList (d := 3) [0, 2, 3, 4, 5, 6, 7, 8, 1] := by
  constructor
  · decide
  · decide

/-- The pointwise swap contract of `do_action`: `pos1` and `pos2` exchange
their values and every other cell is unchanged (shared helper). -/
theorem do_action_apply (d : ℕ) (b : Board d) (m : Action d) (p : Pos d)
    (h1 : p ≠ m.pos1) (h2 : p ≠ m.pos2) :
    do_action b m m.pos1 = b m.pos2 ∧ do_action b m m.pos2 = b m.pos1 ∧
      do_action b m p = b p := by
  rw [do_action_eq_swap]
  refine ⟨?_, ?_, ?_⟩
  · simp
  · simp
  · simp [Equiv.swap_apply_of_ne_of_ne h1 h2]

/-- C3 (amended): `do_action` never fails: for any board and any move —
blank-adjacent or not — it returns the board with the values at `pos1` and
`pos2` exchanged and every other cell unchanged; in particular moves
produced by `available_actions` succeed and return the swapped board. -/
theorem do_action_total_swap (d : ℕ) (b : Board d) (m : Action d) (p : Pos d)
    (h1 : p ≠ m.pos1) (h2 : p ≠ m.pos2) :
    do_action b m m.pos1 = b m.pos2 ∧ do_action b m m.pos2 = b m.pos1 ∧
      do_action b m p = b p :=
  do_action_apply d b m p h1 h2

/-- C3 witness: the swap contract evaluated at the invalid corner-to-corner
move of the counterexample, with the untouched cell `(0,1)`. -/
theorem do_action_total_swap_w :
    do_action (boardOfList (d := 3) [1, 2, 3, 4, 5, 6, 7, 8, 0])
        ⟨(0, 0), (2, 2)⟩ (0, 0) =
      boardOfList (d := 3) [1, 2, 3, 4, 5, 6, 7, 8, 0] (2, 2) ∧
    do_action (boardOfList (d := 3) [1, 2, 3, 4, 5, 6, 7, 8, 0])
        ⟨(0, 0), (2, 2)⟩ (2, 2) =
      boardOfList (d := 3) [1, 2, 3, 4, 5, 6, 7, 8, 0] (0, 0) ∧
    do_action (boardOfList (d := 3) [1, 2, 3, 4, 5, 6, 7, 8, 0])
        ⟨(0, 0), (2, 2)⟩ (0, 1) =
      boardOfList (d := 3) [1, 2, 3, 4, 5, 6, 7, 8, 0] (0, 1) :=
  do_action_total_swap 3 (boardOfList [1, 2, 3, 4, 5, 6, 7, 8, 0])
    ⟨(0, 0), (2, 2)⟩ (0, 1) (by decide) (by decide)

/-- C9: `do_action` returns a new board differing from its argument exactly
at the move's two positions, whose values are exchanged; for a legal move
on a well-formed board the result is a genuinely different board value
(the blank moves, so the two swapped cells hold different values). -/
theorem do_action_frame (d : ℕ) (b : Board d) (m : Action d) (p : Pos d)
    (hm : m ∈ available_actions b) (hv : validBoard b)
    (h1 : p ≠ m.pos1) (h2 : p ≠ m.pos2) :
    do_action b m ≠ b ∧ do_action b m m.pos1 = b m.pos2 ∧
      do_action b m m.pos2 = b m.pos1 ∧ do_action b m p = b p := by
  obtain ⟨-, hb0, hne, -⟩ := available_actions_mem hm
  obtain ⟨hswap1, hswap2, hframe⟩ := do_action_apply d b m p h1 h2
  refine ⟨?_, hswap1, hswap2, hframe⟩
  intro heq
  have hval : b m.pos2 = b m.pos1 := by
    calc b m.pos2 = do_action b m m.pos1 := hswap1.symm
    _ = b m.pos1 := by rw [heq]
  exact hne (hv.2 hval)

/-- Degenerate boundary: on the `1 × 1` board there are no legal moves. -/
theorem available_actions_dim1 (b : Board 1) : available_actions b = [] := by
  unfold available_actions
  cases hfb : findBlank b with
  | none => rfl
  | some q =>
      obtain ⟨x, y⟩ := q
      fin_cases x <;> fin_cases y <;> decide

/-- C5: on a well-formed `3 × 3` board with blank at `q`, the move list has
between `2` and `4` elements — `2` when both coordinates of `q` are extreme
(corner), `3` when one is (edge), `4` otherwise (centre); every move starts
at the blank and goes to an orthogonally adjacent in-bounds cell; the moves
appear in the deterministic order up, down, left, right (their direction
vectors form a sublist of `[(-1,0), (1,0), (0,-1), (0,1)]`); and the move
list is empty only in the degenerate `1 × 1` case. -/
theorem available_actions_spec (b : Board 3) (q : Pos 3)
    (_hv : validBoard b) (hq : findBlank b = some q) :
    (2 ≤ (available_actions b).length ∧ (available_actions b).length ≤ 4) ∧
    (available_actions b).length =
      2 + (if (q.1 : ℕ) = 0 ∨ (q.1 : ℕ) = 2 then 0 else 1) +
        (if (q.2 : ℕ) = 0 ∨ (q.2 : ℕ) = 2 then 0 else 1) ∧
    (∀ m ∈ available_actions b, m.pos1 = q ∧ adjacent m.pos1 m.pos2) ∧
    ((available_actions b).map
        (fun m =>
          ((m.pos2.1 : ℤ) - (m.pos1.1 : ℤ),
            (m.pos2.2 : ℤ) - (m.pos1.2 : ℤ)))).Sublist
      [(-1, 0), (1, 0), (0, -1), (0, 1)] ∧
    (∀ b₁ : Board 1, available_actions b₁ = []) := by
  obtain ⟨x, y⟩ := q
  unfold available_actions
  simp only [hq]
  fin_cases x <;> fin_cases y <;>
    exact ⟨by decide, by decide, by decide, by decide, available_actions_dim1⟩

/-- C5 witness: the goal board, blank at the corner `(2,2)`: two moves. -/
theorem available_actions_spec_w :
    (2 ≤ (available_actions (boardOfList (d := 3) [1, 2, 3, 4, 5, 6, 7, 8, 0])).length ∧
      (available_actions (boardOfList (d := 3) [1, 2, 3, 4, 5, 6, 7, 8, 0])).length ≤ 4) ∧
    (available_actions (boardOfList (d := 3) [1, 2, 3, 4, 5, 6, 7, 8, 0])).length =
      2 + (if (((2 : Fin 3), (2 : Fin 3)).1 : ℕ) = 0 ∨ (((2 : Fin 3), (2 : Fin 3)).1 : ℕ) = 2 then 0 else 1) +
        (if (((2 : Fin 3), (2 : Fin 3)).2 : ℕ) = 0 ∨ (((2 : Fin 3), (2 : Fin 3)).2 : ℕ) = 2 then 0 else 1) ∧
    (∀ m ∈ available_actions (boardOfList (d := 3) [1, 2, 3, 4, 5, 6, 7, 8, 0]),
      m.pos1 = ((2 : Fin 3), (2 : Fin 3)) ∧ adjacent m.pos1 m.pos2) ∧
    ((available_actions (boardOfList (d := 3) [1, 2, 3, 4, 5, 6, 7, 8, 0])).map
        (fun m =>
          ((m.pos2.1 : ℤ) - (m.pos1.1 : ℤ),
            (m.pos2.2 : ℤ) - (m.pos1.2 : ℤ)))).Sublist
      [(-1, 0), (1, 0), (0, -1), (0, 1)] ∧
    (∀ b₁ : Board 1, available_actions b₁ = []) :=
  available_actions_spec (boardOfList [1, 2, 3, 4, 5, 6, 7, 8, 0])
    ((2 : Fin 3), (2 : Fin 3)) (by decide) (by decide)

/-- C9 witness: the legal up move on the goal board, frame cell `(0,0)`. -/
theorem do_action_frame_w :
    do_action (boardOfList (d := 3) [1, 2, 3, 4, 5, 6, 7, 8, 0])
        ⟨(2, 2), (1, 2)⟩ ≠
      boardOfList (d := 3) [1, 2, 3, 4, 5, 6, 7, 8, 0] ∧
    do_action (boardOfList (d := 3) [1, 2, 3, 4, 5, 6, 7, 8, 0])
        ⟨(2, 2), (1, 2)⟩ (2, 2) =
      boardOfList (d := 3) [1, 2, 3, 4, 5, 6, 7, 8, 0] (1, 2) ∧
    do_action (boardOfList (d := 3) [1, 2, 3, 4, 5, 6, 7, 8, 0])
        ⟨(2, 2), (1, 2)⟩ (1, 2) =
      boardOfList (d := 3) [1, 2, 3, 4, 5, 6, 7, 8, 0] (2, 2) ∧
    do_action (boardOfList (d := 3) [1, 2, 3, 4, 5, 6, 7, 8, 0])
        ⟨(2, 2), (1, 2)⟩ (0, 0) =
      boardOfList (d := 3) [1, 2, 3, 4, 5, 6, 7, 8, 0] (0, 0) :=
  do_action_frame 3 (boardOfList [1, 2, 3, 4, 5, 6, 7, 8, 0])
    ⟨(2, 2), (1, 2)⟩ (0, 0) (by decide) (by decide) (by decide) (by decide)

/-- Invariants of the successor-generation fold: every accumulated entry's
key is outside the original closed set, is a successor of `board` carrying
the extended path and the f = g + h priority; the accumulated closed set is
the original one plus exactly the accumulated keys, without duplicates; the
accumulator only grows; and every successor whose key was not already
closed ends up represented by an entry. -/
theorem pushStep_fold_spec {d : ℕ} (board : Board d) (path : List (Action d))
    (closed : Finset (Board d)) :
    ∀ (l : List (Action d)) (acc : List (Entry d) × Finset (Board d)),
      (∀ a ∈ l, a ∈ available_actions board) →
      (∀ e ∈ acc.1,
        e.key ∉ closed ∧
        (∃ m ∈ available_actions board,
          e.key = do_action board m ∧ e.path = path ++ [m]) ∧
        e.priority =
          ((path.length : ℤ) + 1) + manhattan_distance e.key +
            2 * (linear_conflict e.key : ℤ)) →
      acc.2 = closed ∪ (acc.1.map Entry.key).toFinset →
      (acc.1.map Entry.key).Nodup →
      ((∀ e ∈ (l.foldl (pushStep board path) acc).1,
          e.key ∉ closed ∧
          (∃ m ∈ available_actions board,
            e.key = do_action board m ∧ e.path = path ++ [m]) ∧
          e.priority =
            ((path.length : ℤ) + 1) + manhattan_distance e.key +
              2 * (linear_conflict e.key : ℤ)) ∧
        (l.foldl (pushStep board path) acc).2 =
          closed ∪ ((l.foldl (pushStep board path) acc).1.map Entry.key).toFinset ∧
        ((l.foldl (pushStep board path) acc).1.map Entry.key).Nodup ∧
        (∀ e ∈ acc.1, e ∈ (l.foldl (pushStep board path) acc).1) ∧
        (∀ m ∈ l, do_action board m ∉ closed →
          ∃ e ∈ (l.foldl (pushStep board path) acc).1,
            e.key = do_action board m)) := by
  intro l
  induction l with
  | nil =>
      intro acc hl h1 h2 h3
      exact ⟨h1, h2, h3, fun e he => he, by simp⟩
  | cons a l ih =>
      intro acc hl h1 h2 h3
      have ha : a ∈ available_actions board := hl a (List.mem_cons_self a l)
      have hl' : ∀ x ∈ l, x ∈ available_actions board :=
        fun x hx => hl x (List.mem_cons_of_mem a hx)
      rw [List.foldl_cons]
      by_cases hmem : do_action board a ∈ acc.2
      · have hstep : pushStep board path acc a = acc := by
          simp [pushStep, hmem]
        rw [hstep]
        obtain ⟨g1, g2, g3, g4, g5⟩ := ih acc hl' h1 h2 h3
        refine ⟨g1, g2, g3, g4, ?_⟩
        intro m hm hnc
        rcases List.mem_cons.mp hm with rfl | hm'
        · have hks : do_action board m ∈ (acc.1.map Entry.key).toFinset := by
            rw [h2] at hmem
            rcases Finset.mem_union.mp hmem with h | h
            · exact absurd h hnc
            · exact h
          have hx := List.mem_toFinset.mp hks
          rw [List.mem_map] at hx
          obtain ⟨e, he, hek⟩ := hx
          exact ⟨e, g4 e he, hek⟩
        · exact g5 m hm' hnc
      · have hstep : pushStep board path acc a =
            (acc.1 ++
              [newEntry board path a],
              insert (do_action board a) acc.2) := by
          simp [pushStep, hmem]
        rw [hstep]
        have hnotc : do_action board a ∉ closed := by
          intro hc
          exact hmem (h2 ▸ Finset.mem_union_left _ hc)
        have hnotkeys : do_action board a ∉ acc.1.map Entry.key := by
          intro hk
          exact hmem (h2 ▸ Finset.mem_union_right _ (List.mem_toFinset.mpr hk))
        have h1' : ∀ e ∈ acc.1 ++
            [newEntry board path a],
            e.key ∉ closed ∧
            (∃ m ∈ available_actions board,
              e.key = do_action board m ∧ e.path = path ++ [m]) ∧
            e.priority =
              ((path.length : ℤ) + 1) + manhattan_distance e.key +
                2 * (linear_conflict e.key : ℤ) := by
          intro e he
          rcases List.mem_append.mp he with he | he
          · exact h1 e he
          · simp only [List.mem_singleton] at he
            subst he
            refine ⟨hnotc, ⟨a, ha, rfl, rfl⟩, ?_⟩
            simp only [newEntry, List.length_append, List.length_singleton]
            push_cast
            ring
        have h2' : insert (do_action board a) acc.2 =
            closed ∪
              ((acc.1 ++
                [newEntry board path a]).map Entry.key).toFinset := by
          rw [h2]
          ext x
          simp only [newEntry, List.map_append, List.map_cons, List.map_nil,
            List.toFinset_append, Finset.mem_insert, Finset.mem_union,
            List.mem_toFinset, List.mem_singleton, List.toFinset_cons,
            List.toFinset_nil, insert_emptyc_eq, Finset.mem_singleton]
          tauto
        have h3' : ((acc.1 ++
            [newEntry board path a]).map Entry.key).Nodup := by
          rw [List.map_append]
          simp only [List.map_cons, List.map_nil]
          rw [List.nodup_append]
          refine ⟨h3, List.nodup_singleton _, ?_⟩
          intro x hx
          simp only [List.mem_singleton]
          intro hxx
          subst hxx
          exact hnotkeys hx
        obtain ⟨g1, g2, g3, g4, g5⟩ :=
          ih (acc.1 ++ [newEntry board path a],
            insert (do_action board a) acc.2) hl' h1' h2' h3'
        refine ⟨g1, g2, g3, ?_, ?_⟩
        · intro e he
          exact g4 e (List.mem_append_left _ he)
        · intro m hm hnc
          rcases List.mem_cons.mp hm with rfl | hm'
          · refine ⟨_, g4 _ (List.mem_append_right _ (List.mem_singleton_self _)), rfl⟩
          · exact g5 m hm' hnc

/-- C4: in every A* iteration, each successor `next` of the popped entry
`(f, board, path)` whose key is not in the closed set is pushed with
priority exactly `g + h` where `g = len(path) + 1` and
`h = manhattan_distance(next) + 2*linear_conflict(next)`; and every pushed
entry is of that shape. -/
theorem A_star_push_priority (d : ℕ) (board : Board d)
    (path : List (Action d)) (closed : Finset (Board d)) :
    (∀ e ∈ (expand board path closed).1,
        e.key ∉ closed ∧
        (∃ m ∈ available_actions board,
          e.key = do_action board m ∧ e.path = path ++ [m]) ∧
        e.priority =
          ((path.length : ℤ) + 1) +
            (manhattan_distance e.key + 2 * (linear_conflict e.key : ℤ))) ∧
    (∀ m ∈ available_actions board, do_action board m ∉ closed →
        ∃ e ∈ (expand board path closed).1,
          e.key = do_action board m ∧
          e.priority =
            ((path.length : ℤ) + 1) +
              (manhattan_distance e.key + 2 * (linear_conflict e.key : ℤ))) := by
  obtain ⟨g1, g2, g3, g4, g5⟩ :=
    pushStep_fold_spec board path closed (available_actions board)
      ([], closed) (fun a ha => ha) (by simp) (by simp) (by simp)
  have hP : ∀ e ∈ (expand board path closed).1,
      e.key ∉ closed ∧
      (∃ m ∈ available_actions board,
        e.key = do_action board m ∧ e.path = path ++ [m]) ∧
      e.priority =
        ((path.length : ℤ) + 1) +
          (manhattan_distance e.key + 2 * (linear_conflict e.key : ℤ)) := by
    intro e he
    obtain ⟨k1, k2, k3⟩ := g1 e he
    exact ⟨k1, k2, by linarith⟩
  refine ⟨hP, ?_⟩
  intro m hm hnc
  obtain ⟨e, he, hek⟩ := g5 m hm hnc
  exact ⟨e, he, hek, (hP e he).2.2⟩

/-- Whatever `popMin` pops, the popped entry and the remaining entries all
come from the original heap. -/
theorem popMin_subset {d : ℕ} :
    ∀ (l : List (Entry d)) (e : Entry d) (rest : List (Entry d)),
      popMin l = some (e, rest) → e ∈ l ∧ ∀ x ∈ rest, x ∈ l := by
  intro l
  induction l with
  | nil => intro e rest h; simp [popMin] at h
  | cons a as ih =>
      intro e rest h
      rw [popMin] at h
      cases hpm : popMin as with
      | none =>
          rw [hpm] at h
          simp only [Option.some.injEq, Prod.mk.injEq] at h
          obtain ⟨rfl, rfl⟩ := h
          exact ⟨List.mem_cons_self a as, by simp⟩
      | some p =>
          obtain ⟨m, r⟩ := p
          rw [hpm] at h
          obtain ⟨hm, hr⟩ := ih m r hpm
          have h' : (if entryLt m a = true then some (m, a :: r)
              else some (a, as)) = some (e, rest) := h
          by_cases hlt : entryLt m a = true
          · rw [if_pos hlt] at h'
            simp only [Option.some.injEq, Prod.mk.injEq] at h'
            obtain ⟨rfl, rfl⟩ := h'
            refine ⟨List.mem_cons_of_mem a hm, ?_⟩
            intro x hx
            rcases List.mem_cons.mp hx with rfl | hx'
            · exact List.mem_cons_self x as
            · exact List.mem_cons_of_mem a (hr x hx')
          · rw [if_neg hlt] at h'
            simp only [Option.some.injEq, Prod.mk.injEq] at h'
            obtain ⟨rfl, rfl⟩ := h'
            exact ⟨List.mem_cons_self a as,
              fun x hx => List.mem_cons_of_mem a hx⟩

/-- The closed set after an expansion is the old one plus exactly the keys
of the pushed entries; the pushed keys are distinct and none was closed
before. -/
theorem expand_spec (d : ℕ) (board : Board d) (path : List (Action d))
    (closed : Finset (Board d)) :
    (expand board path closed).2 =
      closed ∪ ((expand board path closed).1.map Entry.key).toFinset ∧
    ((expand board path closed).1.map Entry.key).Nodup ∧
    (∀ b₁ ∈ (expand board path closed).1.map Entry.key, b₁ ∉ closed) := by
  obtain ⟨g1, g2, g3, -, -⟩ :=
    pushStep_fold_spec board path closed (available_actions board)
      ([], closed) (fun a ha => ha) (by simp) (by simp) (by simp)
  refine ⟨g2, g3, ?_⟩
  intro b₁ hb₁
  rw [List.mem_map] at hb₁
  obtain ⟨e, he, rfl⟩ := hb₁
  exact (g1 e he).1

/-- A successful loop iteration decomposes as: pop a minimal, non-goal
entry, expand it; the pushed identities of the iteration are the expanded
entries' keys. -/
theorem A_step_cases {d : ℕ} {s s₁ : AState d} (h : A_step s = some s₁) :
    ∃ e rest, popMin s.1 = some (e, rest) ∧ is_goal e.key = false ∧
      s₁ = (rest ++ (expand e.key e.path s.2).1, (expand e.key e.path s.2).2) ∧
      pushedIn s = (expand e.key e.path s.2).1.map Entry.key := by
  cases hpm : popMin s.1 with
  | none => simp [A_step, hpm] at h
  | some p =>
      obtain ⟨e, rest⟩ := p
      cases hg : is_goal e.key with
      | true => simp [A_step, hpm, hg] at h
      | false =>
          simp only [A_step, hpm, hg, Bool.false_eq_true, if_false,
            Option.some.injEq] at h
          refine ⟨e, rest, rfl, hg, h.symm, ?_⟩
          simp [pushedIn, hpm, hg]

/-- The closed set only grows across an iteration. -/
theorem A_step_closed_mono {d : ℕ} {s s₁ : AState d} (h : A_step s = some s₁) :
    s.2 ⊆ s₁.2 := by
  obtain ⟨e, rest, hpm, hg, rfl, -⟩ := A_step_cases h
  obtain ⟨h2, -, -⟩ := expand_spec d e.key e.path s.2
  intro x hx
  exact h2 ▸ Finset.mem_union_left _ hx

/-- One iteration preserves the invariant that every frontier entry's key
is in the closed set. -/
theorem A_step_inv {d : ℕ} {s s₁ : AState d}
    (hinv : ∀ e ∈ s.1, e.key ∈ s.2) (h : A_step s = some s₁) :
    ∀ e ∈ s₁.1, e.key ∈ s₁.2 := by
  obtain ⟨e, rest, hpm, hg, rfl, -⟩ := A_step_cases h
  obtain ⟨h2, -, -⟩ := expand_spec d e.key e.path s.2
  intro e₁ he₁
  rcases List.mem_append.mp he₁ with h' | h'
  · have hx := (popMin_subset s.1 e rest hpm).2 e₁ h'
    exact h2 ▸ Finset.mem_union_left _ (hinv e₁ hx)
  · exact h2 ▸ Finset.mem_union_right _
      (List.mem_toFinset.mpr (List.mem_map_of_mem Entry.key h'))

/-- In any iteration, the identities pushed are pairwise distinct, none is
in the closed set when pushed, and all are in the closed set of the
resulting state. -/
theorem pushedIn_spec {d : ℕ} (s : AState d) :
    (pushedIn s).Nodup ∧ (∀ b₁ ∈ pushedIn s, b₁ ∉ s.2) ∧
    (∀ s₁, A_step s = some s₁ → ∀ b₁ ∈ pushedIn s, b₁ ∈ s₁.2) := by
  cases hpm : popMin s.1 with
  | none =>
      have hp : pushedIn s = [] := by simp [pushedIn, hpm]
      have hstep : A_step s = none := by simp [A_step, hpm]
      rw [hp]
      exact ⟨List.nodup_nil, by simp,
        fun s₁ h => by rw [hstep] at h; simp at h⟩
  | some p =>
      obtain ⟨e, rest⟩ := p
      cases hg : is_goal e.key with
      | true =>
          have hp : pushedIn s = [] := by simp [pushedIn, hpm, hg]
          have hstep : A_step s = none := by simp [A_step, hpm, hg]
          rw [hp]
          exact ⟨List.nodup_nil, by simp,
            fun s₁ h => by rw [hstep] at h; simp at h⟩
      | false =>
          have hp : pushedIn s =
              (expand e.key e.path s.2).1.map Entry.key := by
            simp [pushedIn, hpm, hg]
          obtain ⟨h2, h3, h4⟩ := expand_spec d e.key e.path s.2
          rw [hp]
          refine ⟨h3, h4, ?_⟩
          intro s₁ hs₁ b₁ hb₁
          obtain ⟨e₂, rest₂, hpm₂, hg₂, rfl, -⟩ := A_step_cases hs₁
          rw [hpm] at hpm₂
          have hpair := Option.some.inj hpm₂
          simp only [Prod.mk.injEq] at hpair
          obtain ⟨rfl, rfl⟩ := hpair
          obtain ⟨h2₂, -, -⟩ := expand_spec d e.key e.path s.2
          exact h2₂ ▸ Finset.mem_union_right _ (List.mem_toFinset.mpr hb₁)

/-- Running `a + b` iterations is running `a` and then `b`. -/
theorem A_iter_add {d : ℕ} (s : AState d) (a b₂ : ℕ) :
    A_iter s (a + b₂) =
      match A_iter s a with
      | none => none
      | some s₁ => A_iter s₁ b₂ := by
  induction b₂ with
  | zero =>
      cases h : A_iter s a <;> simp [A_iter, h]
  | succ k ih =>
      have hrw : a + (k + 1) = (a + k) + 1 := rfl
      rw [hrw]
      simp only [A_iter]
      rw [ih]
      cases h : A_iter s a <;> rfl

/-- The closed set only grows along a run. -/
theorem A_iter_closed_mono {d : ℕ} :
    ∀ (k : ℕ) (s t : AState d), A_iter s k = some t → s.2 ⊆ t.2 := by
  intro k
  induction k with
  | zero =>
      intro s t h
      obtain rfl := Option.some.inj h
      exact fun x hx => hx
  | succ k ih =>
      intro s t h
      rw [A_iter] at h
      cases h₁ : A_iter s k with
      | none => rw [h₁] at h; simp at h
      | some u =>
          rw [h₁] at h
          exact (ih s u h₁).trans (A_step_closed_mono h)

/-- Along any run from the seeded initial state, every frontier entry's
key is in the closed set. -/
theorem A_iter_inv {d : ℕ} (init : Board d) :
    ∀ (n : ℕ) (s : AState d),
      A_iter (A_init init) n = some s → ∀ e ∈ s.1, e.key ∈ s.2 := by
  intro n
  induction n with
  | zero =>
      intro s h e he
      obtain rfl := Option.some.inj h
      simp only [A_init, List.mem_singleton] at he
      subst he
      simp [A_init]
  | succ n ih =>
      intro s h
      rw [A_iter] at h
      cases h₁ : A_iter (A_init init) n with
      | none => rw [h₁] at h; simp at h
      | some u =>
          rw [h₁] at h
          exact A_step_inv (ih u h₁) h

/-- C7: the A* run keeps every frontier identity inside the closed set:
the start identity is seeded before the loop; at any reachable state the
identities pushed in that iteration are distinct, absent from the closed
set at the moment they are pushed and present in it immediately after; and
an identity pushed at iteration `n` is never pushed again at any later
iteration `n + 1 + k`, so no board identity is enqueued twice in a run. -/
theorem A_star_closed_discipline (d : ℕ) (init : Board d) (n k : ℕ) :
    (∀ e ∈ (A_init init).1, e.key ∈ (A_init init).2) ∧
    (∀ s, A_iter (A_init init) n = some s →
      (∀ e ∈ s.1, e.key ∈ s.2) ∧
      (pushedIn s).Nodup ∧
      (∀ b₁ ∈ pushedIn s, b₁ ∉ s.2) ∧
      (∀ s₁, A_step s = some s₁ → ∀ b₁ ∈ pushedIn s, b₁ ∈ s₁.2) ∧
      (∀ t, A_iter (A_init init) (n + 1 + k) = some t →
        ∀ b₁ ∈ pushedIn s, b₁ ∉ pushedIn t)) := by
  constructor
  · intro e he
    simp only [A_init, List.mem_singleton] at he
    subst he
    simp [A_init]
  · intro s hs
    obtain ⟨pn, pnc, pin⟩ := pushedIn_spec s
    refine ⟨A_iter_inv init n s hs, pn, pnc, pin, ?_⟩
    intro t ht b₁ hb₁
    have hadd := A_iter_add (A_init init) (n + 1) k
    rw [hadd] at ht
    cases hu : A_iter (A_init init) (n + 1) with
    | none => rw [hu] at ht; simp at ht
    | some u =>
        rw [hu] at ht
        have hstep : A_step s = some u := by
          rw [A_iter] at hu
          rw [hs] at hu
          exact hu
        intro hmem
        have hb2 : b₁ ∈ u.2 := pin u hstep b₁ hb₁
        have hbt : b₁ ∈ t.2 := A_iter_closed_mono k u t ht hb2
        obtain ⟨-, pnct, -⟩ := pushedIn_spec t
        exact pnct b₁ hmem hbt

end NPuzzle
